import Mathlib

/-!
Verification of the natural-language specification of
`nixpkgs-staging-bisecter` (`bisecter.py`) against a shallow embedding of
its code.

Conventions of the embedding:
* Python `str` commit identifiers and artifact (drv) paths are modelled as
  `String` in the cost-estimator part and as `List Char` (abbreviated
  `Str`) where character-level structure matters (line parsing, the
  memoization key, store-path prefixes).
* Python `set` becomes `Finset`; Python float arithmetic in the cost
  formula becomes exact arithmetic in `ℚ` (the formula only adds,
  multiplies and divides nonnegative integers).
* External collaborators (git, the build command, the filesystem) are
  parameters: `revParse`, `gitLog`, `dryRun`, `ex` (store-path existence),
  `outputsOf` (parsed outputs of a drv file).
-/

namespace Bisecter

/-! ## Cost estimator (bisecter.py, `__main__`, lines 208–244) -/

/-- `reduce(lambda a, b: a | b, (rebuilds[i] for i in candidates), set())`:
left fold of set union over the rebuild sets of a candidate list
(bisecter.py lines 219 and 223). -/
def unionRebuilds (table : String → Finset String) (cands : List String) : Finset String :=
  cands.foldl (fun a i => a ∪ table i) ∅

/-- `rebuilds_if_good` / `rebuilds_if_bad` (bisecter.py lines 218–225): the
cardinality of the union of the candidates' rebuild sets minus the rebuild
set of the commit under consideration. -/
def rebuilds_if (table : String → Finset String) (cands : List String) (c : String) : ℕ :=
  (unionRebuilds table cands \ table c).card

/-- The weight `w` computed at bisecter.py lines 226–233:
`len(rebuilds[commit]) + (len(cig)*rebuilds_if_good + len(cib)*rebuilds_if_bad) / n`. -/
def cost (table : String → Finset String) (c : String) (cig cib : List String) (n : ℕ) : ℚ :=
  ((table c).card : ℚ)
    + ((cig.length : ℚ) * (rebuilds_if table cig c : ℚ)
        + (cib.length : ℚ) * (rebuilds_if table cib c : ℚ)) / (n : ℚ)

/-- The tuple appended to `weights` at bisecter.py lines 234–243:
`(w, commit, len(candidates_if_good), len(candidates_if_bad),
rebuilds_if_good, rebuilds_if_bad)`. -/
structure CostEntry where
  cost : ℚ
  commit : String
  nIfGood : ℕ
  nIfBad : ℕ
  rIfGood : ℕ
  rIfBad : ℕ
deriving DecidableEq

/-- One iteration of the estimator loop (bisecter.py lines 215–243) for a
single commit.  `cigF c` and `cibF c` stand for the results of the two
range-resolver calls `get_bisect_commits(bad, goods + [commit])` and
`get_bisect_commits(commit, goods)`, which depend only on git history. -/
def mkEntry (table : String → Finset String) (n : ℕ) (cigF cibF : String → List String)
    (c : String) : CostEntry :=
  { cost := cost table c (cigF c) (cibF c) n
    commit := c
    nIfGood := (cigF c).length
    nIfBad := (cibF c).length
    rIfGood := rebuilds_if table (cigF c) c
    rIfBad := rebuilds_if table (cibF c) c }

/-- The whole `weights` list built by the estimator loop over `commits`,
with `n = len(commits)` (bisecter.py lines 208 and 214–243). -/
def weights (table : String → Finset String) (cigF cibF : String → List String)
    (commits : List String) : List CostEntry :=
  commits.map (mkEntry table commits.length cigF cibF)

/-- Auxiliary: the fold of unions equals the accumulated union with the
finite bigcup of the table over the candidate list. -/
theorem foldl_union_eq (table : String → Finset String) :
    ∀ (l : List String) (acc : Finset String),
      l.foldl (fun a i => a ∪ table i) acc = acc ∪ l.toFinset.biUnion table := by
  intro l
  induction l with
  | nil => intro acc; simp
  | cons x xs ih =>
    intro acc
    simp only [List.foldl_cons, ih, List.toFinset_cons, Finset.biUnion_insert]
    rw [Finset.union_assoc]

/-- Auxiliary: `unionRebuilds` is the bigcup of the table over the
candidate list. -/
theorem unionRebuilds_eq_biUnion (table : String → Finset String) (l : List String) :
    unionRebuilds table l = l.toFinset.biUnion table := by
  rw [unionRebuilds, foldl_union_eq, Finset.empty_union]

/-- C1: the estimator computes `rebuildsIfGood` (and symmetrically
`rebuildsIfBad`) as the cardinality of the union of the table over the
candidate sub-range minus `table[C]`, an empty candidate list yields 0,
and the cost is `|table[C]| + (|cig|*rIfGood + |cib|*rIfBad) / n`
(bisecter.py lines 214–233). -/
theorem estimator_formula (table : String → Finset String) (cands : List String) (c : String) :
    rebuilds_if table cands c = ((cands.toFinset.biUnion table) \ table c).card
    ∧ rebuilds_if table [] c = 0
    ∧ ∀ (cig cib : List String) (n : ℕ),
        cost table c cig cib n
          = ((table c).card : ℚ)
            + ((cig.length : ℚ) * (rebuilds_if table cig c : ℚ)
                + (cib.length : ℚ) * (rebuilds_if table cib c : ℚ)) / (n : ℚ) := by
  refine ⟨?_, ?_, fun cig cib n => rfl⟩
  · rw [rebuilds_if, unionRebuilds_eq_biUnion]
  · simp [rebuilds_if, unionRebuilds]

/-- C2: every cost entry produced by the estimator loop satisfies
`cost(C) ≥ |table[C]|`: the certain immediate term is a lower bound. -/
theorem cost_lower_bound (table : String → Finset String) (cigF cibF : String → List String)
    (commits : List String) (e : CostEntry) (he : e ∈ weights table cigF cibF commits) :
    ((table e.commit).card : ℚ) ≤ e.cost := by
  rw [weights] at he
  obtain ⟨c, hc, rfl⟩ := List.mem_map.mp he
  simp only [mkEntry, cost]
  have h0 : (0:ℚ) ≤ (((cigF c).length : ℚ) * (rebuilds_if table (cigF c) c : ℚ)
      + ((cibF c).length : ℚ) * (rebuilds_if table (cibF c) c : ℚ)) / (commits.length : ℚ) := by
    positivity
  linarith

/-- Witness for `cost_lower_bound` at a concrete one-commit range. -/
theorem cost_lower_bound_witness :
    (mkEntry (fun _ => (∅ : Finset String)) 1 (fun _ => []) (fun _ => []) "a")
        ∈ weights (fun _ => (∅ : Finset String)) (fun _ => []) (fun _ => []) ["a"]
    ∧ (((fun _ => (∅ : Finset String)) ((mkEntry (fun _ => (∅ : Finset String)) 1
          (fun _ => []) (fun _ => []) "a").commit)).card : ℚ)
        ≤ (mkEntry (fun _ => (∅ : Finset String)) 1 (fun _ => []) (fun _ => []) "a").cost :=
  ⟨by simp [weights],
   cost_lower_bound (fun _ => (∅ : Finset String)) (fun _ => []) (fun _ => []) ["a"]
     (mkEntry (fun _ => (∅ : Finset String)) 1 (fun _ => []) (fun _ => []) "a")
     (by simp [weights])⟩

/-- Auxiliary: the union fold only depends on the table's values on the
candidate list. -/
theorem foldl_union_congr (f g : String → Finset String) :
    ∀ (l : List String) (acc : Finset String), (∀ d ∈ l, f d = g d) →
      l.foldl (fun a i => a ∪ f i) acc = l.foldl (fun a i => a ∪ g i) acc := by
  intro l
  induction l with
  | nil => intro acc _; rfl
  | cons x xs ih =>
    intro acc h
    simp only [List.foldl_cons]
    rw [h x (by simp), ih _ (fun d hd => h d (by simp [hd]))]

/-- Auxiliary: removing a larger set from `U` removes at most
`|T' \ T|` more elements than removing the smaller one. -/
theorem sdiff_card_le (U A B : Finset String) :
    (U \ A).card ≤ (U \ B).card + (B \ A).card := by
  have hss : U \ A ⊆ (U \ B) ∪ (B \ A) := by
    intro x hx
    rw [Finset.mem_sdiff] at hx
    rw [Finset.mem_union, Finset.mem_sdiff, Finset.mem_sdiff]
    by_cases hxB : x ∈ B
    · exact Or.inr ⟨hxB, hx.2⟩
    · exact Or.inl ⟨hx.1, hxB⟩
  calc (U \ A).card ≤ ((U \ B) ∪ (B \ A)).card := Finset.card_le_card hss
    _ ≤ (U \ B).card + (B \ A).card := Finset.card_union_le _ _

/-- Auxiliary: pure rational-arithmetic core of the monotonicity proof. -/
theorem cost_mono_arith (t k g b rg rg' rb rb' n : ℚ)
    (hk : 0 ≤ k) (hg0 : 0 ≤ g) (hb0 : 0 ≤ b) (hn : 0 ≤ n)
    (hrg : rg ≤ rg' + k) (hrb : rb ≤ rb' + k) (hgb : g + b ≤ n) :
    t + (g * rg + b * rb) / n ≤ t + k + (g * rg' + b * rb') / n := by
  rcases eq_or_lt_of_le hn with hn0 | hn0
  · rw [← hn0, div_zero, div_zero]
    linarith
  · have f1 : g * rg ≤ g * rg' + g * k := by
      have := mul_le_mul_of_nonneg_left hrg hg0
      rw [mul_add] at this
      exact this
    have f2 : b * rb ≤ b * rb' + b * k := by
      have := mul_le_mul_of_nonneg_left hrb hb0
      rw [mul_add] at this
      exact this
    have f3 : g * k + b * k ≤ n * k := by
      have := mul_le_mul_of_nonneg_right hgb hk
      rw [add_mul] at this
      exact this
    have h1 : g * rg + b * rb ≤ g * rg' + b * rb' + n * k := by linarith
    have h2 : (g * rg + b * rb) / n ≤ (g * rg' + b * rb' + n * k) / n :=
      (div_le_div_iff_of_pos_right hn0).mpr h1
    have h3 : (g * rg' + b * rb' + n * k) / n = (g * rg' + b * rb') / n + k := by
      rw [add_div, mul_div_cancel_left₀ _ (ne_of_gt hn0)]
    linarith

/-- C3: enlarging `table[C]` while keeping the entries used by the two
candidate sub-ranges, the sub-ranges themselves and the range size fixed
never decreases `cost(C)`.  The hypothesis
`cig.length + cib.length ≤ n` holds for every input the program builds:
`candidates_if_good` and `candidates_if_bad` are disjoint sub-ranges of
the `n`-commit bisect range, neither containing `C` (bisecter.py
lines 216–217). -/
theorem cost_mono (table table' : String → Finset String) (c : String)
    (cig cib : List String) (n : ℕ)
    (hg : ∀ d ∈ cig, table' d = table d) (hb : ∀ d ∈ cib, table' d = table d)
    (hsub : table c ⊆ table' c) (hlen : cig.length + cib.length ≤ n) :
    cost table c cig cib n ≤ cost table' c cig cib n := by
  have hUg : unionRebuilds table' cig = unionRebuilds table cig :=
    foldl_union_congr _ _ cig ∅ hg
  have hUb : unionRebuilds table' cib = unionRebuilds table cib :=
    foldl_union_congr _ _ cib ∅ hb
  have hcardN : (table' c).card = (table c).card + (table' c \ table c).card := by
    have := Finset.card_sdiff_add_card_eq_card hsub
    omega
  have hg2 : rebuilds_if table cig c
      ≤ rebuilds_if table' cig c + (table' c \ table c).card := by
    rw [rebuilds_if, rebuilds_if, hUg]
    exact sdiff_card_le _ _ _
  have hb2 : rebuilds_if table cib c
      ≤ rebuilds_if table' cib c + (table' c \ table c).card := by
    rw [rebuilds_if, rebuilds_if, hUb]
    exact sdiff_card_le _ _ _
  have main := cost_mono_arith ((table c).card : ℚ) (((table' c \ table c).card : ℕ) : ℚ)
    (cig.length : ℚ) (cib.length : ℚ)
    (rebuilds_if table cig c : ℚ) (rebuilds_if table' cig c : ℚ)
    (rebuilds_if table cib c : ℚ) (rebuilds_if table' cib c : ℚ) (n : ℚ)
    (by positivity) (by positivity) (by positivity) (by positivity)
    (by exact_mod_cast hg2) (by exact_mod_cast hb2) (by exact_mod_cast hlen)
  simp only [cost]
  rw [show ((table' c).card : ℚ)
      = ((table c).card : ℚ) + (((table' c \ table c).card : ℕ) : ℚ) by exact_mod_cast hcardN]
  exact main

/-- Witness for `cost_mono`: adding an artifact to `table[C]` at a
concrete one-commit sub-range. -/
theorem cost_mono_witness :
    (∀ d ∈ (["a"] : List String),
        (fun x => if x = "c" then ({"x"} : Finset String) else ∅) d
          = (fun _ => (∅ : Finset String)) d)
    ∧ (∀ d ∈ ([] : List String),
        (fun x => if x = "c" then ({"x"} : Finset String) else ∅) d
          = (fun _ => (∅ : Finset String)) d)
    ∧ (fun _ => (∅ : Finset String)) "c" ⊆ (fun x => if x = "c" then ({"x"} : Finset String) else ∅) "c"
    ∧ (["a"] : List String).length + ([] : List String).length ≤ 1
    ∧ cost (fun _ => (∅ : Finset String)) "c" ["a"] [] 1
        ≤ cost (fun x => if x = "c" then ({"x"} : Finset String) else ∅) "c" ["a"] [] 1 :=
  ⟨by decide, by decide, by intro x hx; simp at hx, by decide,
   cost_mono (fun _ => (∅ : Finset String))
     (fun x => if x = "c" then ({"x"} : Finset String) else ∅) "c" ["a"] [] 1
     (by decide) (by decide) (by intro x hx; simp at hx) (by decide)⟩

/-! ## Ranking (bisecter.py line 244: `weights.sort()`)

Python sorts the list of tuples
`(w, commit, len(cig), len(cib), rebuilds_if_good, rebuilds_if_bad)`
lexicographically: entries are ordered by cost first and, on equal cost,
by the commit identifier string (code-point lexicographic order), then by
the remaining diagnostic fields. -/

/-- The sort key of a `CostEntry`: the lexicographic order of the Python
tuple `(w, commit, len(cig), len(cib), rebuilds_if_good, rebuilds_if_bad)`. -/
def entryKey (e : CostEntry) : ℚ ×ₗ (String ×ₗ (ℕ ×ₗ (ℕ ×ₗ (ℕ ×ₗ ℕ)))) :=
  toLex (e.cost, toLex (e.commit, toLex (e.nIfGood, toLex (e.nIfBad, toLex (e.rIfGood, e.rIfBad)))))

/-- Python tuple comparison `<=` between two weight entries. -/
def entryLe (a b : CostEntry) : Prop :=
  entryKey a ≤ entryKey b

instance : DecidableRel entryLe :=
  fun a b => inferInstanceAs (Decidable (entryKey a ≤ entryKey b))

instance : IsTotal CostEntry entryLe :=
  ⟨fun a b => le_total (entryKey a) (entryKey b)⟩

instance : IsTrans CostEntry entryLe :=
  ⟨fun _ _ _ h1 h2 => le_trans h1 h2⟩

/-- `weights.sort()` (bisecter.py line 244): sort the entries by the tuple
order.  A stable sort with respect to a total antisymmetric order; the
result is the unique `entryLe`-sorted permutation. -/
def sortWeights (ws : List CostEntry) : List CostEntry :=
  List.insertionSort entryLe ws

/-- Auxiliary: tuple order implies cost order with commit tie-break. -/
theorem entryLe_cost_commit (a b : CostEntry) (h : entryLe a b) :
    a.cost < b.cost ∨ (a.cost = b.cost ∧ a.commit ≤ b.commit) := by
  simp only [entryLe, entryKey] at h
  rcases (Prod.Lex.le_iff _ _).mp h with hlt | ⟨heq, hr⟩
  · exact Or.inl hlt
  · rcases (Prod.Lex.le_iff _ _).mp hr with hlt2 | ⟨heq2, _⟩
    · exact Or.inr ⟨heq, le_of_lt hlt2⟩
    · exact Or.inr ⟨heq, le_of_eq heq2⟩

/-- C4: the ranking is a permutation of the cost entries, sorted ascending
by cost, and two entries of identical cost are ordered by their commit
identifier (deterministic tie-break via Python tuple comparison). -/
theorem ranking_sorted (ws : List CostEntry) :
    (sortWeights ws).Perm ws
    ∧ List.Sorted (fun a b : CostEntry =>
        a.cost < b.cost ∨ (a.cost = b.cost ∧ a.commit ≤ b.commit)) (sortWeights ws) :=
  ⟨List.perm_insertionSort entryLe ws,
   (List.sorted_insertionSort entryLe ws).imp (fun h => entryLe_cost_commit _ _ h)⟩

/-! ## Range resolver (`get_bisect_commits`, bisecter.py lines 71–88)

Strings are modelled character by character (`Str := List Char`) because
the function parses the textual output of `git log --pretty=oneline`.
The external collaborators are parameters: `revParse` models
`git_rev_parse` (bisecter.py lines 62–68) and `gitLog` models the raw
standard output of the `git log` invocation at line 75–79. -/

/-- A Python `str`, character by character. -/
abbrev Str := List Char

/-- Python `text.split(sep)` for a one-character separator: splits on
every occurrence, keeping empty fragments. -/
def splitChar (sep : Char) : Str → List Str
  | [] => [[]]
  | c :: rest =>
    match splitChar sep rest with
    | [] => [[]]
    | w :: ws => if c = sep then [] :: w :: ws else (c :: w) :: ws

/-- Whitespace as stripped by Python `str.strip` (the characters that can
occur around a `git log` line). -/
def isSpaceChar (c : Char) : Bool :=
  c = ' ' || c = '\t' || c = '\n' || c = '\r'

/-- Python `line.strip()`. -/
def stripChars (s : Str) : Str :=
  ((s.dropWhile isSpaceChar).reverse.dropWhile isSpaceChar).reverse

/-- `line.strip().split(" ")[0]` (bisecter.py lines 84–85): the first
word of a log line, i.e. the commit hash. -/
def lineCommit (line : Str) : Str :=
  (splitChar ' ' (stripChars line)).headD []

/-- `get_bisect_commits` (bisecter.py lines 71–88).  `bad` is first
canonicalized with `revParse`; the `assert len(goods) >= 1` is modelled
as returning `none`; otherwise each nonempty output line of
`git log --pretty=oneline bad --not *goods` contributes its first word
unless that word equals the resolved bad commit. -/
def get_bisect_commits (revParse : Str → Str) (gitLog : Str → List Str → Str)
    (bad : Str) (goods : List Str) : Option (List Str) :=
  let badr := revParse bad
  if 1 ≤ goods.length then
    some ((splitChar '\n' (gitLog badr goods)).filterMap (fun line =>
      if line = [] then none
      else if lineCommit line = badr then none
      else some (lineCommit line)))
  else none

/-- C5: whatever git prints, the sequence returned by the range resolver
never contains the (resolved) bad commit itself. -/
theorem bad_not_in_range (revParse : Str → Str) (gitLog : Str → List Str → Str)
    (bad : Str) (goods : List Str) (res : List Str)
    (h : get_bisect_commits revParse gitLog bad goods = some res) :
    revParse bad ∉ res := by
  intro hmem
  simp only [get_bisect_commits] at h
  split at h
  · rw [Option.some.injEq] at h
    subst h
    rw [List.mem_filterMap] at hmem
    obtain ⟨line, _, hline⟩ := hmem
    by_cases h1 : line = []
    · rw [if_pos h1] at hline
      exact Option.noConfusion hline
    · rw [if_neg h1] at hline
      by_cases h2 : lineCommit line = revParse bad
      · rw [if_pos h2] at hline
        exact Option.noConfusion hline
      · rw [if_neg h2] at hline
        exact h2 (Option.some.inj hline)
  · exact Option.noConfusion h

/-- Witness for `bad_not_in_range` on a concrete two-line git log. -/
theorem bad_not_in_range_witness :
    get_bisect_commits (fun s => s) (fun _ _ => ['a', ' ', 'm', '\n', 'b']) ['a'] [['g']]
        = some [['b']]
    ∧ (['a'] : Str) ∉ ([['b']] : List Str) :=
  ⟨by decide,
   bad_not_in_range (fun s => s) (fun _ _ => ['a', ' ', 'm', '\n', 'b']) ['a'] [['g']] [['b']]
     (by decide)⟩

/-- C9: calling the range resolver with an empty list of good references
fails (the `assert len(goods) >= 1` at bisecter.py line 74) before any
range is computed. -/
theorem resolver_requires_good (revParse : Str → Str) (gitLog : Str → List Str → Str)
    (bad : Str) :
    get_bisect_commits revParse gitLog bad [] = none := by
  simp [get_bisect_commits]

/-! ## Memoization key (`get_drvs`, bisecter.py line 143, and `hash`,
lines 91–95)

The key is `hash(commit + ";" + ";".join(cmd))`.  The claim concerns the
string fed to the cryptographic hash, so only that string is modelled. -/

/-- Python `";".join(cmd)` (bisecter.py line 143). -/
def joinSemi : List Str → Str
  | [] => []
  | [x] => x
  | x :: y :: t => x ++ ';' :: joinSemi (y :: t)

/-- The string fed to sha256 by `get_drvs`:
`commit + ";" + ";".join(cmd)` (bisecter.py line 143). -/
def hashInput (commit : Str) (cmd : List Str) : Str :=
  commit ++ ';' :: joinSemi cmd

/-- C6 counterexample: the commands `["a;b"]` and `["a", "b"]` are
differently tokenized yet produce the same hash-input string, because the
separator `;` may occur inside a token. -/
theorem hash_key_collision :
    hashInput ['c'] [['a', ';', 'b']] = hashInput ['c'] [['a'], ['b']]
    ∧ ([['a', ';', 'b']] : List Str) ≠ [['a'], ['b']] := by
  exact ⟨rfl, by decide⟩

/-- Auxiliary: a `;`-free prefix before the first `;` is unique. -/
theorem append_semi_inj : ∀ (a b r1 r2 : Str), ';' ∉ a → ';' ∉ b →
    a ++ ';' :: r1 = b ++ ';' :: r2 → a = b ∧ r1 = r2 := by
  intro a
  induction a with
  | nil =>
    intro b r1 r2 _ hb h
    cases b with
    | nil => simpa using h
    | cons y ys =>
      rw [List.nil_append, List.cons_append] at h
      injection h with hy _
      subst hy
      exact absurd (List.mem_cons_self _ _) hb
  | cons x xs ih =>
    intro b r1 r2 ha hb h
    cases b with
    | nil =>
      rw [List.nil_append, List.cons_append] at h
      injection h with hx _
      subst hx
      exact absurd (List.mem_cons_self _ _) ha
    | cons y ys =>
      rw [List.cons_append, List.cons_append] at h
      injection h with h1 h2
      subst h1
      have ha' : ';' ∉ xs := fun hm => ha (List.mem_cons_of_mem _ hm)
      have hb' : ';' ∉ ys := fun hm => hb (List.mem_cons_of_mem _ hm)
      obtain ⟨he, hr⟩ := ih ys r1 r2 ha' hb' h2
      exact ⟨by rw [he], hr⟩

/-- Auxiliary: `";".join` is injective on nonempty lists of `;`-free
tokens. -/
theorem joinSemi_inj : ∀ (l1 l2 : List Str), l1 ≠ [] → l2 ≠ [] →
    (∀ t ∈ l1, ';' ∉ t) → (∀ t ∈ l2, ';' ∉ t) →
    joinSemi l1 = joinSemi l2 → l1 = l2 := by
  intro l1
  induction l1 with
  | nil => intro l2 h1 _ _ _ _; exact absurd rfl h1
  | cons x xs ih =>
    intro l2 _ h2 ht1 ht2 h
    cases l2 with
    | nil => exact absurd rfl h2
    | cons y ys =>
      cases xs with
      | nil =>
        cases ys with
        | nil =>
          simp only [joinSemi] at h
          rw [h]
        | cons z zs =>
          simp only [joinSemi] at h
          have hx : ';' ∉ x := ht1 x (List.mem_cons_self _ _)
          rw [h] at hx
          exact absurd (List.mem_append_right y (List.mem_cons_self _ _)) hx
      | cons w ws =>
        cases ys with
        | nil =>
          simp only [joinSemi] at h
          have hy : ';' ∉ y := ht2 y (List.mem_cons_self _ _)
          rw [← h] at hy
          exact absurd (List.mem_append_right x (List.mem_cons_self _ _)) hy
        | cons z zs =>
          simp only [joinSemi] at h
          have hx : ';' ∉ x := ht1 x (List.mem_cons_self _ _)
          have hy : ';' ∉ y := ht2 y (List.mem_cons_self _ _)
          obtain ⟨he, hj⟩ := append_semi_inj x y _ _ hx hy h
          have hrest := ih (z :: zs) (by simp) (by simp)
            (fun t ht => ht1 t (List.mem_cons_of_mem _ ht))
            (fun t ht => ht2 t (List.mem_cons_of_mem _ ht)) hj
          rw [he, hrest]

/-- C6 (amended): the key construction is unambiguous only on inputs in
which neither the commit nor any command token contains the separator
`;` (and the token list is nonempty, which the CLI guarantees at
bisecter.py lines 202–204): under those provisos, distinct inputs feed
distinct strings to the hash. -/
theorem hashInput_inj (c1 c2 : Str) (cmd1 cmd2 : List Str)
    (hc1 : ';' ∉ c1) (hc2 : ';' ∉ c2)
    (ht1 : ∀ t ∈ cmd1, ';' ∉ t) (ht2 : ∀ t ∈ cmd2, ';' ∉ t)
    (hn1 : cmd1 ≠ []) (hn2 : cmd2 ≠ [])
    (h : hashInput c1 cmd1 = hashInput c2 cmd2) :
    c1 = c2 ∧ cmd1 = cmd2 := by
  obtain ⟨he, hj⟩ := append_semi_inj c1 c2 (joinSemi cmd1) (joinSemi cmd2) hc1 hc2 h
  exact ⟨he, joinSemi_inj cmd1 cmd2 hn1 hn2 ht1 ht2 hj⟩

/-- Witness for `hashInput_inj` at a concrete commit and command. -/
theorem hashInput_inj_witness :
    (';' ∉ (['a'] : Str))
    ∧ (∀ t ∈ ([['b']] : List Str), ';' ∉ t)
    ∧ ([['b']] : List Str) ≠ []
    ∧ hashInput ['a'] [['b']] = hashInput ['a'] [['b']]
    ∧ ((['a'] : Str) = ['a'] ∧ ([['b']] : List Str) = [['b']]) :=
  ⟨by decide, by decide, by decide, rfl,
   hashInput_inj ['a'] ['a'] [['b']] [['b']] (by decide) (by decide) (by decide) (by decide)
     (by decide) (by decide) rfl⟩

/-! ## Empty candidate range (bisecter.py lines 205–244)

The program performs no emptiness check on the bisect range: it prints
`found 0 commits`, the estimator loop body never runs (so the division by
`n` is never evaluated with `n = 0`), and an empty ranking is printed.
Nothing fails before the core algorithm. -/

/-- C7 counterexample: on an empty range the estimator is a total
function producing the empty ranking — no precondition failure is
detected or reported before (or during) estimation. -/
theorem empty_range_counterexample :
    weights (fun _ => (∅ : Finset String)) (fun _ => []) (fun _ => []) [] = [] := rfl

/-- C7 (amended): an empty candidate range is not fatally reported; the
per-commit loop simply iterates zero times, so every produced entry comes
from a range of size at least 1 and the division by `n` is never
evaluated with `n = 0`. -/
theorem empty_range_vacuous (table : String → Finset String)
    (cigF cibF : String → List String) :
    weights table cigF cibF [] = []
    ∧ ∀ (commits : List String) (e : CostEntry),
        e ∈ weights table cigF cibF commits → 1 ≤ commits.length := by
  refine ⟨rfl, ?_⟩
  intro commits e he
  rw [weights] at he
  obtain ⟨c, hc, -⟩ := List.mem_map.mp he
  cases commits with
  | nil => cases hc
  | cons x xs => simp

/-- Witness for `empty_range_vacuous` on a one-commit range. -/
theorem empty_range_vacuous_witness :
    weights (fun _ => (∅ : Finset String)) (fun _ => []) (fun _ => []) [] = []
    ∧ (mkEntry (fun _ => (∅ : Finset String)) 1 (fun _ => []) (fun _ => []) "a")
        ∈ weights (fun _ => (∅ : Finset String)) (fun _ => []) (fun _ => []) ["a"]
    ∧ 1 ≤ (["a"] : List String).length :=
  ⟨(empty_range_vacuous (fun _ => (∅ : Finset String)) (fun _ => []) (fun _ => [])).1,
   by simp [weights],
   (empty_range_vacuous (fun _ => (∅ : Finset String)) (fun _ => []) (fun _ => [])).2 ["a"]
     (mkEntry (fun _ => (∅ : Finset String)) 1 (fun _ => []) (fun _ => []) "a")
     (by simp [weights])⟩

/-! ## Rebuild-set oracle and its cache (bisecter.py lines 39–48,
98–123, 129–150)

The on-disk cache directory is modelled as a map from hash key to the
stored artifact set; `repr`/`literal_eval` round-trip a `set` of strings
exactly, so serialization is modelled as the identity.  `dryRun` models
`get_drvs_inner`: `some v` when the external command exits 0 having
printed exactly the drv paths `v` on stderr, `none` when it exits
non-zero, in which case `run` (line 24, `check=True`) raises and the
exception propagates out of `get_drvs` — modelled as result `none`. -/

/-- The store-path prefix asserted for every output
(bisecter.py line 45). -/
def nixStore : Str := "/nix/store".data

/-- `is_built` (bisecter.py lines 39–48): walks the declared output paths
of a drv in order; asserts the store prefix of each visited path (`none`
models the assertion failure), and returns `true` as soon as one output
path exists in the store, `false` when none does. -/
def is_built (ex : Str → Bool) : List Str → Option Bool
  | [] => some false
  | line :: rest =>
    if nixStore.isPrefixOf line then
      if ex line then some true else is_built ex rest
    else none

/-- `cache_for` (bisecter.py lines 110–116): look up the value stored for
a hash key, if any. -/
def cache_for (cache : Str → Option (Finset Str)) (h : Str) : Option (Finset Str) :=
  cache h

/-- `write_cache_for` (bisecter.py lines 119–123): store a value for a
hash key, leaving every other entry unchanged. -/
def write_cache_for (cache : Str → Option (Finset Str)) (h : Str) (v : Finset Str) :
    Str → Option (Finset Str) :=
  fun k => if k = h then some v else cache k

/-- `get_drvs` (bisecter.py lines 138–150) for a key `h` that already
stands for `hash(commit + ";" + ";".join(cmd))`: on a cache hit the
cached raw set is reused; on a miss the dry-run result is stored with
`write_cache_for` only when the command succeeded; either way the raw set
is then filtered through `is_built` (already-materialized artifacts are
dropped).  Returns the new cache state and the result (`none` = the
exception from a failed command propagates). -/
def get_drvs (cache : Str → Option (Finset Str)) (outputsOf : Str → List Str) (ex : Str → Bool)
    (h : Str) (dryRun : Option (Finset Str)) :
    (Str → Option (Finset Str)) × Option (Finset Str) :=
  match cache_for cache h with
  | some v =>
    (cache, some (v.filter (fun drv => (is_built ex (outputsOf drv)).getD false = false)))
  | none =>
    match dryRun with
    | none => (cache, none)
    | some v =>
      (write_cache_for cache h v,
       some (v.filter (fun drv => (is_built ex (outputsOf drv)).getD false = false)))

/-- C8: on a cache miss, if the external dry-run command fails, `get_drvs`
propagates the error (result `none`) and writes nothing: the persistent
cache is exactly what it was. -/
theorem failed_dryrun_preserves_cache (cache : Str → Option (Finset Str))
    (outputsOf : Str → List Str) (ex : Str → Bool) (h : Str)
    (hmiss : cache h = none) :
    (get_drvs cache outputsOf ex h none).1 = cache
    ∧ (get_drvs cache outputsOf ex h none).2 = none := by
  simp [get_drvs, cache_for, hmiss]

/-- Witness for `failed_dryrun_preserves_cache` on an empty cache. -/
theorem failed_dryrun_preserves_cache_witness :
    ((fun _ => none : Str → Option (Finset Str)) ['k'] = none)
    ∧ (get_drvs (fun _ => none) (fun _ => []) (fun _ => false) ['k'] none).1
        = (fun _ => none)
    ∧ (get_drvs (fun _ => none) (fun _ => []) (fun _ => false) ['k'] none).2 = none :=
  ⟨rfl,
   (failed_dryrun_preserves_cache (fun _ => none) (fun _ => []) (fun _ => false) ['k'] rfl).1,
   (failed_dryrun_preserves_cache (fun _ => none) (fun _ => []) (fun _ => false) ['k'] rfl).2⟩

/-- Auxiliary: on outputs that all carry the store prefix, `is_built`
returns exactly "some output path exists". -/
theorem is_built_eq_any (ex : Str → Bool) :
    ∀ (outs : List Str), (∀ o ∈ outs, nixStore.isPrefixOf o = true) →
      is_built ex outs = some (outs.any ex) := by
  intro outs
  induction outs with
  | nil => intro _; rfl
  | cons o rest ih =>
    intro hv
    have ho : nixStore.isPrefixOf o = true := hv o (List.mem_cons_self _ _)
    simp only [is_built, ho, if_true, List.any_cons]
    cases hex : ex o with
    | false =>
      simp only [Bool.false_or, if_false]
      exact ih (fun t ht => hv t (List.mem_cons_of_mem _ ht))
    | true => simp only [Bool.true_or, if_true]

/-- C10: an artifact counts as built as soon as any single one of its
declared output paths exists locally (`is_built` is the disjunction over
the outputs, not the conjunction), and such an artifact is filtered out
of every rebuild set `get_drvs` returns. -/
theorem built_if_any_output (ex : Str → Bool) (outputsOf : Str → List Str) (drv : Str)
    (hvalid : ∀ o ∈ outputsOf drv, nixStore.isPrefixOf o = true)
    (hex : (outputsOf drv).any ex = true) :
    is_built ex (outputsOf drv) = some true
    ∧ ∀ (cache : Str → Option (Finset Str)) (h : Str) (dryRun : Option (Finset Str))
        (res : Finset Str),
        (get_drvs cache outputsOf ex h dryRun).2 = some res → drv ∉ res := by
  have hb : is_built ex (outputsOf drv) = some true := by
    rw [is_built_eq_any ex _ hvalid, hex]
  refine ⟨hb, ?_⟩
  intro cache h dryRun res hres hmem
  cases hc : cache_for cache h with
  | some v =>
    simp only [get_drvs, hc] at hres
    rw [Option.some.injEq] at hres
    subst hres
    rw [Finset.mem_filter] at hmem
    rw [hb] at hmem
    simp at hmem
  | none =>
    cases dryRun with
    | none =>
      simp only [get_drvs, hc] at hres
      exact Option.noConfusion hres
    | some v =>
      simp only [get_drvs, hc] at hres
      rw [Option.some.injEq] at hres
      subst hres
      rw [Finset.mem_filter] at hmem
      rw [hb] at hmem
      simp at hmem

/-- Witness for `built_if_any_output`: a drv with two outputs of which
exactly one is materialized is treated as built and drops out of the
rebuild set computed from a cache hit. -/
theorem built_if_any_output_witness :
    (∀ o ∈ [nixStore ++ ['1'], nixStore ++ ['2']], nixStore.isPrefixOf o = true)
    ∧ ([nixStore ++ ['1'], nixStore ++ ['2']] : List Str).any
        (fun o => o == nixStore ++ ['1']) = true
    ∧ is_built (fun o => o == nixStore ++ ['1'])
        ((fun _ => [nixStore ++ ['1'], nixStore ++ ['2']] : Str → List Str) ['d']) = some true
    ∧ (['d'] : Str) ∉ ((get_drvs (fun _ => some {['d']})
        (fun _ => [nixStore ++ ['1'], nixStore ++ ['2']])
        (fun o => o == nixStore ++ ['1']) ['k'] none).2.getD ∅) :=
  ⟨by decide, by decide,
   (built_if_any_output (fun o => o == nixStore ++ ['1'])
     (fun _ => [nixStore ++ ['1'], nixStore ++ ['2']]) ['d'] (by decide) (by decide)).1,
   (built_if_any_output (fun o => o == nixStore ++ ['1'])
     (fun _ => [nixStore ++ ['1'], nixStore ++ ['2']]) ['d'] (by decide) (by decide)).2
     (fun _ => some {['d']}) ['k'] none _ (by decide)⟩

end Bisecter
